import Mathlib

set_option maxRecDepth 100000

/-!
# Verification of `CellphoneS_Crawl.py`

A shallow embedding of the core of the CellphoneS crawler: the path
canonicalizer (`norm_text` / `to_path`), the deterministic identifier
generator (`uuid_cat` / `uuid_prod`, UUID version 5 over SHA-1), the
category-tree builder (`ensure_category` / `topological_categories`) and the
recursive sitemap walker (`_discover_product_urls_from_sitemap` /
`iter_product_urls`).

External collaborators of the source (HTTP transport, the BeautifulSoup XML
classifier, `urllib.parse.urljoin`, `unicodedata`) are modelled as explicit
function parameters or small faithful tables, as noted at each definition.
Machine integers are modelled as `Nat` with explicit reduction mod 2^32.
-/

namespace Cellphones

/-! ## Character classes

The ASCII fragment of the character classes used by `norm_text`.
`pyWs` models Python's `\s` / `str.strip()` whitespace restricted to ASCII;
outside ASCII, Python treats further code points as whitespace, but every
such character is turned into (or merged into) a single space by the
`[^a-zA-Z0-9\s/\-|]+ -> " "` substitution together with the `\s+ -> " "`
collapse, so the final output of `norm_text` is unaffected by the
restriction. -/

def pyWs (c : Char) : Bool :=
  c = ' ' || c = '\t' || c = '\n' || c = '\r' || c = '\x0b' || c = '\x0c'

/-- The character class `[a-zA-Z0-9\s/\-|]` kept by the first regex
substitution in `norm_text` (ASCII whitespace fragment, see `pyWs`). -/
def allowedKeep (c : Char) : Bool :=
  c.isAlpha || c.isDigit || pyWs c || c = '/' || c = '-' || c = '|'

/-- Characters stripped from segment ends by the `.strip` call (set `- / |`)
in `to_path`. -/
def dashSlashPipe (c : Char) : Bool :=
  c = '-' || c = '/' || c = '|'

/-- `str.strip(...)`: drop characters satisfying `p` from both ends. -/
def stripWhile (p : Char → Bool) (l : List Char) : List Char :=
  ((l.dropWhile p).reverse.dropWhile p).reverse

/-- The loop of `replRuns`, structurally recursive on a fuel that bounds the
list length (each step consumes at least one character, so fuel equal to the
length is always enough and the fuel-exhausted case is unreachable). -/
def replGo : Nat → List Char → List Char
  | _, [] => []
  | 0, _ :: _ => []
  | n + 1, c :: rest =>
    if allowedKeep c then c :: replGo n rest
    else ' ' :: replGo n (rest.dropWhile (fun d => !allowedKeep d))

/-- `re.sub(r"[^a-zA-Z0-9\s/\-|]+", " ", s)`: each maximal run of
disallowed characters becomes a single space. -/
def replRuns (l : List Char) : List Char := replGo l.length l

/-- The loop of `collWs`, structurally recursive on a length-bounding fuel. -/
def collGo : Nat → List Char → List Char
  | _, [] => []
  | 0, _ :: _ => []
  | n + 1, c :: rest =>
    if pyWs c then ' ' :: collGo n (rest.dropWhile pyWs)
    else c :: collGo n rest

/-- `re.sub(r"\s+", " ", s)`: each maximal whitespace run becomes one space. -/
def collWs (l : List Char) : List Char := collGo l.length l

/-- `norm_text` from the source.  The Unicode NFD normalization
(`unicodedata.normalize("NFD", ·)`) and the combining-mark test
(`unicodedata.category(ch) == "Mn"`) come from the external `unicodedata`
library and are passed in as the parameters `nfd` and `isMn`. -/
def norm_text (nfd : String → String) (isMn : Char → Bool) (s : String) : String :=
  if s = "" then ""
  else
    String.mk (stripWhile pyWs (collWs (replRuns
      (((nfd (String.mk (stripWhile pyWs s.data))).data.filter (fun c => !(isMn c)))))))

/-- One cleaned segment of `to_path`:
`norm_text(p).lower().replace(" ", "-")` followed by `.strip` of `- / |`.
`str.lower` is modelled by `Char.toLower` (ASCII); every character of
`norm_text`'s output is ASCII, so this is exact. -/
def cleanSeg (nfd : String → String) (isMn : Char → Bool) (p : String) : String :=
  String.mk (stripWhile dashSlashPipe
    (((norm_text nfd isMn p).data.map Char.toLower).map (fun c => if c = ' ' then '-' else c)))

/-- `"/".join(cleaned)`. -/
def joinSlash : List String → String
  | [] => ""
  | [s] => s
  | s :: rest => s ++ "/" ++ joinSlash rest

/-- `to_path(*parts)` from the source: falsy parts are skipped, every other
part is cleaned by `cleanSeg`, empty results are dropped, survivors are
joined with `/`. -/
def to_path (nfd : String → String) (isMn : Char → Bool) (parts : List String) : String :=
  joinSlash (parts.filterMap (fun p =>
    if p = "" then none
    else if cleanSeg nfd isMn p = "" then none
    else some (cleanSeg nfd isMn p)))

/-! ## UUID version 5 (`uuid.uuid5` over SHA-1)

`uuid.uuid5(namespace, name)` hashes `namespace.bytes + name.encode("utf-8")`
with SHA-1, keeps the first 16 bytes, sets the version nibble to 5 and the
variant bits to `10`, and `str(...)` renders them as lowercase hex in the
8-4-4-4-12 layout.  SHA-1 is implemented below over `Nat` with explicit
reduction mod 2^32. -/

def w32 (n : Nat) : Nat := n % 4294967296

/-- Rotate a 32-bit word left by `k`. -/
def rotl (k n : Nat) : Nat := w32 ((n <<< k) ||| (n >>> (32 - k)))

/-- UTF-8 encoding of one character (`str.encode("utf-8")`, per code point). -/
def utf8Char (c : Char) : List Nat :=
  let n := c.toNat
  if n < 128 then [n]
  else if n < 2048 then [192 ||| (n >>> 6), 128 ||| (n &&& 63)]
  else if n < 65536 then
    [224 ||| (n >>> 12), 128 ||| ((n >>> 6) &&& 63), 128 ||| (n &&& 63)]
  else
    [240 ||| (n >>> 18), 128 ||| ((n >>> 12) &&& 63),
     128 ||| ((n >>> 6) &&& 63), 128 ||| (n &&& 63)]

def utf8 (s : String) : List Nat := s.data.flatMap utf8Char

/-- `k` bytes of `n`, big-endian (low bytes of `n` if it is larger). -/
def toBytesBE : Nat → Nat → List Nat
  | 0, _ => []
  | k + 1, n => toBytesBE k (n / 256) ++ [n % 256]

/-- SHA-1 padding: `0x80`, zeros to 56 mod 64, 8-byte big-endian bit length. -/
def sha1pad (msg : List Nat) : List Nat :=
  msg ++ [128] ++ List.replicate ((119 - msg.length % 64) % 64) 0 ++
    toBytesBE 8 (msg.length * 8)

/-- The loop splitting bytes into 64-byte chunks, structurally recursive on
a fuel bounding the number of chunks. -/
def chunksGo : Nat → List Nat → List (List Nat)
  | _, [] => []
  | 0, _ :: _ => []
  | n + 1, c :: rest => (c :: rest.take 63) :: chunksGo n (rest.drop 63)

/-- Split a byte list into 64-byte chunks. -/
def chunks64 (l : List Nat) : List (List Nat) := chunksGo l.length l

/-- Big-endian 32-bit words from bytes. -/
def bytesToWords : List Nat → List Nat
  | b0 :: b1 :: b2 :: b3 :: rest =>
    (((b0 * 256 + b1) * 256 + b2) * 256 + b3) :: bytesToWords rest
  | _ => []

/-- The loop extending the message schedule by one word per step; 80 steps
of fuel always reach length 80. -/
def extendGo : Nat → List Nat → List Nat
  | 0, ws => ws
  | n + 1, ws =>
    if ws.length < 80 then
      extendGo n (ws ++ [rotl 1 (((ws.getD (ws.length - 3) 0) ^^^ (ws.getD (ws.length - 8) 0)) ^^^
        ((ws.getD (ws.length - 14) 0) ^^^ (ws.getD (ws.length - 16) 0)))])
    else ws

/-- Extend the 16 chunk words to the 80-word message schedule. -/
def extendSched (ws : List Nat) : List Nat := extendGo 80 ws

/-- One SHA-1 round; the state is `(a, b, c, d, e)`, the input `(t, w)`. -/
def sha1Round (st : Nat × Nat × Nat × Nat × Nat) (tw : Nat × Nat) :
    Nat × Nat × Nat × Nat × Nat :=
  let (a, b, c, d, e) := st
  let (t, w) := tw
  let f :=
    if t < 20 then (b &&& c) ||| ((b ^^^ 4294967295) &&& d)
    else if t < 40 then (b ^^^ c) ^^^ d
    else if t < 60 then ((b &&& c) ||| (b &&& d)) ||| (c &&& d)
    else (b ^^^ c) ^^^ d
  let kk :=
    if t < 20 then 1518500249
    else if t < 40 then 1859775393
    else if t < 60 then 2400959708
    else 3395469782
  (w32 (rotl 5 a + f + e + kk + w), a, rotl 30 b, c, d)

/-- Absorb one 64-byte chunk into the SHA-1 state. -/
def sha1Chunk (h : Nat × Nat × Nat × Nat × Nat) (chunk : List Nat) :
    Nat × Nat × Nat × Nat × Nat :=
  let (h0, h1, h2, h3, h4) := h
  let (a, b, c, d, e) := (extendSched (bytesToWords chunk)).enum.foldl sha1Round h
  (w32 (h0 + a), w32 (h1 + b), w32 (h2 + c), w32 (h3 + d), w32 (h4 + e))

/-- SHA-1 digest (20 bytes) of a byte list. -/
def sha1 (msg : List Nat) : List Nat :=
  let (h0, h1, h2, h3, h4) :=
    (chunks64 (sha1pad msg)).foldl sha1Chunk
      (1732584193, 4023233417, 2562383102, 271733878, 3285377520)
  toBytesBE 4 h0 ++ toBytesBE 4 h1 ++ toBytesBE 4 h2 ++ toBytesBE 4 h3 ++ toBytesBE 4 h4

/-- The 16 bytes of `uuid.NAMESPACE_URL`
(`6ba7b811-9dad-11d1-80b4-00c04fd430c8`). -/
def namespaceURL : List Nat :=
  [107, 167, 184, 17, 157, 173, 17, 209, 128, 180, 0, 192, 79, 212, 48, 200]

/-- The 16 bytes of `uuid.uuid5(ns, name)`: truncated SHA-1 with version 5
and RFC 4122 variant bits set. -/
def uuid5bytes (ns : List Nat) (name : String) : List Nat :=
  let d := (sha1 (ns ++ utf8 name)).take 16
  let d1 := d.set 6 ((d.getD 6 0 &&& 15) ||| 80)
  d1.set 8 ((d1.getD 8 0 &&& 63) ||| 128)

def hexDigit (n : Nat) : Char :=
  if n < 10 then Char.ofNat (48 + n) else Char.ofNat (87 + n)

def byteHex (b : Nat) : List Char := [hexDigit (b / 16), hexDigit (b % 16)]

def bytesHex (l : List Nat) : List Char := l.flatMap byteHex

/-- `str(uuid.UUID(...))`: lowercase hex in the 8-4-4-4-12 layout. -/
def uuidFormat (d : List Nat) : String :=
  String.mk (bytesHex (d.take 4)) ++ "-" ++ String.mk (bytesHex ((d.drop 4).take 2)) ++ "-" ++
    String.mk (bytesHex ((d.drop 6).take 2)) ++ "-" ++
    String.mk (bytesHex ((d.drop 8).take 2)) ++ "-" ++ String.mk (bytesHex (d.drop 10))

/-- `str(uuid.uuid5(ns, name))`. -/
def uuid5str (ns : List Nat) (name : String) : String := uuidFormat (uuid5bytes ns name)

/-- `uuid_cat` from the source: empty path gives `""`, otherwise the UUID5 of
the namespaced key `cellphones:/cat/<path>`. -/
def uuid_cat (path : String) : String :=
  if path = "" then "" else uuid5str namespaceURL ("cellphones:/cat/" ++ path)

/-- `uuid_prod` from the source: the UUID5 of `cellphones:/prod/<url>`,
with no empty-input guard. -/
def uuid_prod (url : String) : String :=
  uuid5str namespaceURL ("cellphones:/prod/" ++ url)

/-! ## Category tree (`CategoryNode`, `ensure_category`,
`topological_categories`) -/

/-- The curated `POPULAR_TOP` set from the source. -/
def POPULAR_TOP : List String :=
  ["dien-thoai", "tablet", "laptop", "am-thanh", "dong-ho",
   "phu-kien", "tivi", "pc", "man-hinh", "gia-dung", "camera", "dien-may"]

/-- The `CategoryNode` dataclass. -/
structure CategoryNode where
  name : String
  path : String
  parent_path : Option String
  is_popular : Bool
deriving DecidableEq, Repr

/-- The `nodes` dictionary, keyed by path, in insertion order. -/
abbrev NodeMap : Type := List (String × CategoryNode)

/-- The `for depth, name in enumerate(chain, start=1)` loop of
`ensure_category`.  The third component of the result is `true` when the
loop raised `IndexError`: at `depth != 1` the source evaluates
`built_paths[-1]`, which fails when every earlier chain entry was falsy and
skipped, leaving `built_paths` empty. -/
def ensureLoop (nfd : String → String) (isMn : Char → Bool) :
    NodeMap → Option String → List String → Nat → List String →
      NodeMap × List String × Bool
  | nodes, _, built, _, [] => (nodes, built, false)
  | nodes, parent_path, built, depth, name :: rest =>
    if name = "" then ensureLoop nfd isMn nodes parent_path built (depth + 1) rest
    else
      match (if depth = 1 then some (to_path nfd isMn [name])
             else (built.getLast?).map (fun b => to_path nfd isMn [b, name])) with
      | none => (nodes, built, true)
      | some path =>
        ensureLoop nfd isMn
          (if (nodes.lookup path).isSome then nodes
           else nodes ++ [(path,
             { name := String.mk (stripWhile pyWs name.data)
               path := path
               parent_path := parent_path
               is_popular := (depth == 1) && POPULAR_TOP.contains (to_path nfd isMn [name]) })])
          (some path) (built ++ [path]) (depth + 1) rest

/-- `ensure_category(nodes, chain)` from the source.  The map is returned
alongside the result because the Python function mutates `nodes` in place;
`Except.error ()` models the `IndexError` escape (mutations made before the
raise persist). -/
def ensure_category (nfd : String → String) (isMn : Char → Bool)
    (nodes : NodeMap) (chain : List String) : NodeMap × Except Unit (Option String) :=
  if chain = [] then (nodes, Except.ok none)
  else
    match ensureLoop nfd isMn nodes none [] 1 chain with
    | (nodes', built, crashed) =>
      if crashed then (nodes', Except.error ())
      else (nodes', Except.ok built.getLast?)

/-- A node map produced by a sequence of `ensure_category` calls starting
from the empty dictionary. -/
def runChains (nfd : String → String) (isMn : Char → Bool)
    (chains : List (List String)) : NodeMap :=
  chains.foldl (fun m c => (ensure_category nfd isMn m c).1) []

/-- `path.count("/")`. -/
def countSlash (s : String) : Nat := s.data.count '/'

/-- The comparison underlying `sorted(..., key=lambda n: (n.path.count("/"),
n.path))`: lexicographic on (slash count, path). -/
def catLE (a b : CategoryNode) : Bool :=
  (countSlash a.path < countSlash b.path) ||
    ((countSlash a.path = countSlash b.path) && (a.path ≤ b.path))

/-- `topological_categories` from the source. -/
def topological_categories (nodes : NodeMap) : List CategoryNode :=
  (nodes.map Prod.snd).mergeSort catLE

/-! ## A concrete model of NFD for the worked example -/

/-- Modelled from the Unicode character database (the external
`unicodedata` library): the canonical NFD decompositions of the characters
used in this development.  Per UnicodeData.txt, U+1EC7 (`ệ`) decomposes to
`e` followed by U+0323 and U+0302, U+1EA1 (`ạ`) to `a` followed by U+0323,
while U+0110 (`Đ`, a stroke letter) has **no** canonical decomposition and
ASCII characters are NFD-inert. -/
def nfdCharVN (c : Char) : List Char :=
  if c = 'ệ' then ['e', '̣', '̂']
  else if c = 'ạ' then ['a', '̣']
  else [c]

/-- `unicodedata.normalize("NFD", s)` for strings over the characters
modelled by `nfdCharVN`. -/
def nfdVN (s : String) : String := String.mk (s.data.flatMap nfdCharVN)

/-- Modelled from the Unicode character database:
`unicodedata.category(ch) == "Mn"` for the characters used in this
development.  The combining marks U+0323 and U+0302 are `Mn`; ASCII
characters and `Đ` (category Lu) are not. -/
def isMnVN (c : Char) : Bool := c = '̣' || c = '̂'

/-! ## Sitemap walker -/

/-- The document classification of `_extract_locs_from_xml`. -/
inductive DocType
  | sitemapindex
  | urlset
  | unknown
deriving DecidableEq, Repr

/-- `loc.lower().endswith(".html")` (`str.lower` modelled on ASCII). -/
def endsHtml (loc : String) : Bool :=
  (String.mk (loc.data.map Char.toLower)).endsWith ".html"

/-- `budget_left is not None and len(results) >= budget_left`. -/
def budgetDone : Option Nat → Nat → Bool
  | none, _ => false
  | some b, n => b ≤ n

/-- The `urlset` loop of `_discover_product_urls_from_sitemap`: collect
locations ending in `.html`, respecting the remaining budget. -/
def collectHtml (budget : Option Nat) : List String → List String → List String
  | acc, [] => acc
  | acc, loc :: rest =>
    if budgetDone budget acc.length then acc
    else if endsHtml loc then collectHtml budget (acc ++ [loc]) rest
    else collectHtml budget acc rest

/-- Result of one walker call: the collected product URLs, the updated
`seen` set, and the trace of addresses actually fetched (the `[SITEMAP]`
log line / `_fetch_xml_text` call sites).  The walk only ever grows `seen`;
that fact is carried in the result so the recursion is well-founded. -/
structure WalkOut (seen : Finset String) where
  results : List String
  seen' : Finset String
  fetched : List String
  grows : seen ⊆ seen'

mutual

/-- `_discover_product_urls_from_sitemap(url, headers, seen, budget_left)`
from the source.  The composition of `_fetch_xml_text` and
`_extract_locs_from_xml` (HTTP transport plus the BeautifulSoup XML
classifier, both external collaborators) is the oracle `env`: `none` models
a failed fetch (non-200 status or empty text), `some (t, locs)` a document
classified as `t` listing `locs`.  `urllib.parse.urljoin` is the oracle
`join`.  `U` is a finite universe of addresses containing the entry address
and closed under `join`; the walk recurses only into `join`-images, so the
measure `(U \ seen).card` decreases whenever an unseen address is visited. -/
def discover (env : String → Option (DocType × List String))
    (join : String → String → String) (U : Finset String)
    (hj : ∀ u l, join u l ∈ U) (url : String) (hu : url ∈ U)
    (seen : Finset String) (budget : Option Nat) : WalkOut seen :=
  if hseen : url ∈ seen then ⟨[], seen, [], Finset.Subset.refl seen⟩
  else
    have hs1 : seen ⊆ insert url seen := Finset.subset_insert url seen
    match env url with
    | none => ⟨[], insert url seen, [url], hs1⟩
    | some (DocType.sitemapindex, locs) =>
      match goChildren env join U hj url locs (insert url seen) budget [] with
      | ⟨res, s2, f2, h2⟩ => ⟨res, s2, url :: f2, Finset.Subset.trans hs1 h2⟩
    | some (DocType.urlset, locs) =>
      ⟨collectHtml budget [] locs, insert url seen, [url], hs1⟩
    | some (DocType.unknown, _) => ⟨[], insert url seen, [url], hs1⟩
termination_by ((U \ seen).card, 0)
decreasing_by
  apply Prod.Lex.left
  have hmem : url ∈ U \ seen := Finset.mem_sdiff.mpr ⟨hu, hseen⟩
  have hset : U \ insert url seen = (U \ seen).erase url := by
    ext a
    simp only [Finset.mem_sdiff, Finset.mem_erase, Finset.mem_insert]
    tauto
  rw [hset]
  exact Finset.card_erase_lt_of_mem hmem

/-- The `for i, loc in enumerate(locs, 1)` loop of the `sitemapindex`
branch, with `acc` playing `results`: stop once the local budget is
exhausted, otherwise recurse on `urljoin(url, loc)` with the remaining
budget and concatenate in document order. -/
def goChildren (env : String → Option (DocType × List String))
    (join : String → String → String) (U : Finset String)
    (hj : ∀ u l, join u l ∈ U) (base : String) (locs : List String)
    (seen : Finset String) (budget : Option Nat) (acc : List String) : WalkOut seen :=
  match locs with
  | [] => ⟨acc, seen, [], Finset.Subset.refl seen⟩
  | loc :: rest =>
    if budgetDone budget acc.length then ⟨acc, seen, [], Finset.Subset.refl seen⟩
    else
      match discover env join U hj (join base loc) (hj base loc) seen
          (budget.map (fun b => b - acc.length)) with
      | ⟨sub, s1, f1, h1⟩ =>
        match goChildren env join U hj base rest s1 budget (acc ++ sub) with
        | ⟨out, s2, f2, h2⟩ => ⟨out, s2, f1 ++ f2, Finset.Subset.trans h1 h2⟩
termination_by ((U \ seen).card, locs.length + 1)
decreasing_by
  · apply Prod.Lex.right
    simp
  · have hle : (U \ s1).card ≤ (U \ seen).card :=
      Finset.card_le_card (Finset.sdiff_subset_sdiff (Finset.Subset.refl U) h1)
    rcases Nat.lt_or_ge ((U \ s1).card) ((U \ seen).card) with hlt | hge
    · exact Prod.Lex.left _ _ hlt
    · have heq : (U \ s1).card = (U \ seen).card := Nat.le_antisymm hle hge
      rw [heq]
      apply Prod.Lex.right
      simp

end

/-- `limit is not None and total >= limit`. -/
def limitReached : Option Nat → Nat → Bool
  | none, _ => false
  | some L, t => L ≤ t

/-- The `for entry in entries` loop of `iter_product_urls`: the `seen` set
and the running `total` are shared across entry points; each entry's URLs
are yielded until the running total reaches the limit. -/
def iterLoop (env : String → Option (DocType × List String))
    (join : String → String → String) (U : Finset String)
    (hj : ∀ u l, join u l ∈ U) (limit : Option Nat) :
    (entries : List String) → (∀ e ∈ entries, e ∈ U) → Finset String → Nat →
      List String
  | [], _, _, _ => []
  | e :: rest, he, seen, total =>
    if limitReached limit total then []
    else
      match discover env join U hj e (he e (List.mem_cons_self e rest)) seen
          (limit.map (fun L => L - total)) with
      | ⟨urls, s1, _, _⟩ =>
        let tk := match limit with
          | none => urls
          | some L => urls.take (L - total)
        tk ++ iterLoop env join U hj limit rest
          (fun x hx => he x (List.mem_cons_of_mem e hx)) s1 (total + tk.length)

/-- `iter_product_urls(headers, limit)` from the source, as the list of URLs
the generator yields.  The entry points assembled by
`find_product_sitemaps` (external HTTP probing) are the parameter
`entries`; an empty entry list yields nothing. -/
def iter_product_urls (env : String → Option (DocType × List String))
    (join : String → String → String) (U : Finset String)
    (hj : ∀ u l, join u l ∈ U) (entries : List String)
    (he : ∀ e ∈ entries, e ∈ U) (limit : Option Nat) : List String :=
  if entries = [] then []
  else iterLoop env join U hj limit entries he ∅ 0

/-- The invariant of one `discover` call: the budget bounds the results, a
seen address contributes nothing, every fetched address is fresh and
fetched once, and the final `seen` set is the initial one plus the fetched
addresses. -/
def walkerP1 (env : String → Option (DocType × List String))
    (join : String → String → String) (U : Finset String)
    (hj : ∀ u l, join u l ∈ U) (url : String) (hu : url ∈ U)
    (seen : Finset String) (budget : Option Nat) : Prop :=
  (∀ K : Nat, budget = some K →
    (discover env join U hj url hu seen budget).results.length ≤ K) ∧
  (url ∈ seen →
    (discover env join U hj url hu seen budget).results = [] ∧
    (discover env join U hj url hu seen budget).seen' = seen ∧
    (discover env join U hj url hu seen budget).fetched = []) ∧
  (discover env join U hj url hu seen budget).fetched.Nodup ∧
  (∀ a ∈ (discover env join U hj url hu seen budget).fetched, a ∉ seen) ∧
  (discover env join U hj url hu seen budget).seen' =
    seen ∪ (discover env join U hj url hu seen budget).fetched.toFinset

/-- The invariant of the `sitemapindex` child loop, with `acc` playing the
accumulated `results`. -/
def walkerP2 (env : String → Option (DocType × List String))
    (join : String → String → String) (U : Finset String)
    (hj : ∀ u l, join u l ∈ U) (base : String) (locs : List String)
    (seen : Finset String) (budget : Option Nat) (acc : List String) : Prop :=
  (∀ K : Nat, budget = some K → acc.length ≤ K →
    (goChildren env join U hj base locs seen budget acc).results.length ≤ K) ∧
  (goChildren env join U hj base locs seen budget acc).fetched.Nodup ∧
  (∀ a ∈ (goChildren env join U hj base locs seen budget acc).fetched, a ∉ seen) ∧
  (goChildren env join U hj base locs seen budget acc).seen' =
    seen ∪ (goChildren env join U hj base locs seen budget acc).fetched.toFinset

/-! ## The canonical-path alphabet -/

/-- Characters that may appear in a canonical path: lowercase ASCII
letters, digits, hyphen, slash, pipe. -/
def isCanonChar (c : Char) : Bool :=
  c.isLower || c.isDigit || c = '-' || c = '/' || c = '|'

/-- An optional boundary character that is not hyphen, slash or pipe. -/
def notEdge : Option Char → Bool
  | none => true
  | some c => !dashSlashPipe c

/-- The canonical-path alphabet invariant: every character is in the
canonical alphabet and the string neither begins nor ends with hyphen,
slash or pipe. -/
def canonOK (p : String) : Bool :=
  p.data.all isCanonChar && notEdge p.data.head? && notEdge p.data.getLast?

/-- The structural invariant of the node map maintained by
`ensure_category`: keys are unique, every node records its own key as
`path`, every key is canonical, and a node's non-empty parent path is a
present key of strictly smaller slash-depth. -/
def goodMap (M : NodeMap) : Prop :=
  (M.map Prod.fst).Nodup ∧
    ∀ pr ∈ M, pr.2.path = pr.1 ∧ canonOK pr.1 = true ∧
      ∀ pp, pr.2.parent_path = some pp → pp ≠ "" →
        (M.lookup pp).isSome = true ∧ countSlash pp < countSlash pr.1

/-!
# Theorems

## Character facts
-/

theorem char_eq_iff_toNat {c d : Char} : c = d ↔ c.toNat = d.toNat := by
  constructor
  · intro h
    rw [h]
  · intro h
    have h2 := congrArg Char.ofNat h
    simpa using h2

theorem toNat_ofNat_valid {n : Nat} (h : n < 55296) : (Char.ofNat n).toNat = n := by
  simp [Char.ofNat, Nat.isValidChar, h, Char.ofNatAux, Char.toNat, UInt32.ofNat',
    UInt32.toNat, BitVec.toNat_ofNatLt]

theorem isLower_iff {c : Char} : c.isLower = true ↔ 97 ≤ c.toNat ∧ c.toNat ≤ 122 := by
  simp [Char.isLower, UInt32.le_def, BitVec.le_def, Char.toNat, UInt32.toNat]

theorem isUpper_iff {c : Char} : c.isUpper = true ↔ 65 ≤ c.toNat ∧ c.toNat ≤ 90 := by
  simp [Char.isUpper, UInt32.le_def, BitVec.le_def, Char.toNat, UInt32.toNat]

theorem isDigit_iff {c : Char} : c.isDigit = true ↔ 48 ≤ c.toNat ∧ c.toNat ≤ 57 := by
  simp [Char.isDigit, UInt32.le_def, BitVec.le_def, Char.toNat, UInt32.toNat]

theorem isAlpha_iff {c : Char} :
    c.isAlpha = true ↔ (65 ≤ c.toNat ∧ c.toNat ≤ 90) ∨ (97 ≤ c.toNat ∧ c.toNat ≤ 122) := by
  simp [Char.isAlpha, isUpper_iff, isLower_iff]

theorem toLower_eq_of_not_upper {c : Char} (h : ¬ (65 ≤ c.toNat ∧ c.toNat ≤ 90)) :
    c.toLower = c := by
  simp [Char.toLower, h]

theorem toLower_of_upper {c : Char} (h : 65 ≤ c.toNat ∧ c.toNat ≤ 90) :
    (Char.toLower c).toNat = c.toNat + 32 := by
  simp [Char.toLower, h]
  rw [toNat_ofNat_valid]
  omega

theorem pyWs_iff {c : Char} :
    pyWs c = true ↔ c.toNat = 32 ∨ (9 ≤ c.toNat ∧ c.toNat ≤ 13) := by
  simp only [pyWs, Bool.or_eq_true, decide_eq_true_eq, char_eq_iff_toNat,
    (show (' ' : Char).toNat = 32 from rfl), (show ('\t' : Char).toNat = 9 from rfl),
    (show ('\n' : Char).toNat = 10 from rfl), (show ('\r' : Char).toNat = 13 from rfl),
    (show ('\x0b' : Char).toNat = 11 from rfl), (show ('\x0c' : Char).toNat = 12 from rfl)]
  omega

theorem dashSlashPipe_iff {c : Char} :
    dashSlashPipe c = true ↔ c.toNat = 45 ∨ c.toNat = 47 ∨ c.toNat = 124 := by
  simp only [dashSlashPipe, Bool.or_eq_true, decide_eq_true_eq, char_eq_iff_toNat,
    (show ('-' : Char).toNat = 45 from rfl), (show ('/' : Char).toNat = 47 from rfl),
    (show ('|' : Char).toNat = 124 from rfl)]
  omega

theorem isCanonChar_iff {c : Char} :
    isCanonChar c = true ↔
      (97 ≤ c.toNat ∧ c.toNat ≤ 122) ∨ (48 ≤ c.toNat ∧ c.toNat ≤ 57) ∨
        c.toNat = 45 ∨ c.toNat = 47 ∨ c.toNat = 124 := by
  simp only [isCanonChar, Bool.or_eq_true, isLower_iff, isDigit_iff,
    decide_eq_true_eq, char_eq_iff_toNat,
    (show ('-' : Char).toNat = 45 from rfl), (show ('/' : Char).toNat = 47 from rfl),
    (show ('|' : Char).toNat = 124 from rfl)]
  omega

theorem allowedKeep_iff {c : Char} :
    allowedKeep c = true ↔
      (65 ≤ c.toNat ∧ c.toNat ≤ 90) ∨ (97 ≤ c.toNat ∧ c.toNat ≤ 122) ∨
        (48 ≤ c.toNat ∧ c.toNat ≤ 57) ∨ c.toNat = 32 ∨ (9 ≤ c.toNat ∧ c.toNat ≤ 13) ∨
        c.toNat = 47 ∨ c.toNat = 45 ∨ c.toNat = 124 := by
  simp only [allowedKeep, Bool.or_eq_true, isAlpha_iff, isDigit_iff, pyWs_iff,
    decide_eq_true_eq, char_eq_iff_toNat,
    (show ('-' : Char).toNat = 45 from rfl), (show ('/' : Char).toNat = 47 from rfl),
    (show ('|' : Char).toNat = 124 from rfl)]
  omega

/-- A canonical character is kept by the regex class, is not whitespace,
is not a space, and is fixed by `Char.toLower`. -/
theorem isCanonChar_facts {c : Char} (h : isCanonChar c = true) :
    allowedKeep c = true ∧ pyWs c = false ∧ c ≠ ' ' ∧ c.toLower = c := by
  rw [isCanonChar_iff] at h
  refine ⟨by rw [allowedKeep_iff]; omega, ?_, ?_, ?_⟩
  · rw [← Bool.not_eq_true, pyWs_iff]
    omega
  · rw [Ne, char_eq_iff_toNat]
    have h32 : (' ' : Char).toNat = 32 := rfl
    rw [h32]
    omega
  · apply toLower_eq_of_not_upper
    omega

/-- A kept non-whitespace character lowercases into the canonical alphabet. -/
theorem allowedKeep_toLower_canon {c : Char} (hk : allowedKeep c = true)
    (hw : pyWs c = false) : isCanonChar c.toLower = true := by
  rw [allowedKeep_iff] at hk
  rw [← Bool.not_eq_true, pyWs_iff] at hw
  rw [isCanonChar_iff]
  by_cases hu : 65 ≤ c.toNat ∧ c.toNat ≤ 90
  · have := toLower_of_upper hu
    omega
  · rw [toLower_eq_of_not_upper hu]
    omega

/-! ## List-processing lemmas -/

theorem mem_stripWhile {p : Char → Bool} {l : List Char} {c : Char}
    (h : c ∈ stripWhile p l) : c ∈ l := by
  unfold stripWhile at h
  rw [List.mem_reverse] at h
  have h2 := List.dropWhile_subset p h
  rw [List.mem_reverse] at h2
  exact List.dropWhile_subset p h2

theorem getLast?_stripWhile {p : Char → Bool} {l : List Char} {c : Char}
    (h : (stripWhile p l).getLast? = some c) : p c = false := by
  unfold stripWhile at h
  rw [List.getLast?_reverse] at h
  have h2 := List.head?_dropWhile_not p (l.dropWhile p).reverse
  rw [h] at h2
  exact h2

theorem head?_stripWhile {p : Char → Bool} {l : List Char} {c : Char}
    (h : (stripWhile p l).head? = some c) : p c = false := by
  unfold stripWhile at h
  rw [List.head?_reverse] at h
  obtain ⟨t, ht⟩ := List.dropWhile_suffix (l := (l.dropWhile p).reverse) p
  cases hB : (l.dropWhile p).reverse.dropWhile p with
  | nil =>
    rw [hB] at h
    simp at h
  | cons b bs =>
    have hgl : ((l.dropWhile p).reverse).getLast? = some c := by
      rw [← ht, List.getLast?_append]
      rw [hB] at h ⊢
      rw [h]
      rfl
    rw [List.getLast?_reverse] at hgl
    have h2 := List.head?_dropWhile_not p l
    rw [hgl] at h2
    exact h2

theorem stripWhile_eq_self {p : Char → Bool} {l : List Char}
    (h1 : ∀ x, l.head? = some x → p x = false)
    (h2 : ∀ x, l.getLast? = some x → p x = false) :
    stripWhile p l = l := by
  have d1 : l.dropWhile p = l := by
    cases l with
    | nil => rfl
    | cons a t =>
      have := h1 a rfl
      rw [List.dropWhile_cons, this]
      simp
  have d2 : l.reverse.dropWhile p = l.reverse := by
    cases hr : l.reverse with
    | nil => rfl
    | cons a t =>
      have ha : l.getLast? = some a := by
        rw [List.getLast?_eq_head?_reverse, hr]
        rfl
      have := h2 a ha
      rw [List.dropWhile_cons, this]
      simp
  unfold stripWhile
  rw [d1, d2, List.reverse_reverse]

theorem mem_replGo {n : Nat} {l : List Char} {c : Char} (h : c ∈ replGo n l) :
    allowedKeep c = true := by
  induction n generalizing l with
  | zero =>
    cases l with
    | nil => rw [replGo] at h; cases h
    | cons a t => rw [replGo] at h; cases h
  | succ n ih =>
    cases l with
    | nil => rw [replGo] at h; cases h
    | cons a rest =>
      by_cases ha : allowedKeep a = true
      · rw [replGo, if_pos ha] at h
        rcases List.mem_cons.mp h with rfl | h2
        · exact ha
        · exact ih h2
      · rw [replGo, if_neg ha] at h
        rcases List.mem_cons.mp h with rfl | h2
        · decide
        · exact ih h2

theorem mem_replRuns {l : List Char} {c : Char} (h : c ∈ replRuns l) :
    allowedKeep c = true := mem_replGo h

theorem replGo_eq_self {n : Nat} {l : List Char}
    (h : ∀ c ∈ l, allowedKeep c = true) (hn : l.length ≤ n) : replGo n l = l := by
  induction n generalizing l with
  | zero =>
    cases l with
    | nil => rw [replGo]
    | cons a t => simp at hn
  | succ n ih =>
    cases l with
    | nil => rw [replGo]
    | cons a t =>
      have ha := h a (List.mem_cons_self a t)
      rw [replGo, if_pos ha]
      rw [ih (fun c hc => h c (List.mem_cons_of_mem a hc)) (by simp at hn; omega)]

theorem replRuns_eq_self {l : List Char} (h : ∀ c ∈ l, allowedKeep c = true) :
    replRuns l = l := replGo_eq_self h (Nat.le_refl _)

theorem mem_collGo {n : Nat} {l : List Char} {c : Char} (h : c ∈ collGo n l) :
    c = ' ' ∨ (c ∈ l ∧ pyWs c = false) := by
  induction n generalizing l with
  | zero =>
    cases l with
    | nil => rw [collGo] at h; cases h
    | cons a t => rw [collGo] at h; cases h
  | succ n ih =>
    cases l with
    | nil => rw [collGo] at h; cases h
    | cons a rest =>
      by_cases ha : pyWs a = true
      · rw [collGo, if_pos ha] at h
        rcases List.mem_cons.mp h with rfl | h2
        · exact Or.inl rfl
        · rcases ih h2 with h3 | ⟨h3, h4⟩
          · exact Or.inl h3
          · exact Or.inr ⟨List.mem_cons_of_mem a (List.dropWhile_subset pyWs h3), h4⟩
      · rw [collGo, if_neg ha] at h
        rcases List.mem_cons.mp h with rfl | h2
        · exact Or.inr ⟨List.mem_cons_self _ _, by simpa using ha⟩
        · rcases ih h2 with h3 | ⟨h3, h4⟩
          · exact Or.inl h3
          · exact Or.inr ⟨List.mem_cons_of_mem a h3, h4⟩

theorem mem_collWs {l : List Char} {c : Char} (h : c ∈ collWs l) :
    c = ' ' ∨ (c ∈ l ∧ pyWs c = false) := mem_collGo h

theorem collGo_eq_self {n : Nat} {l : List Char}
    (h : ∀ c ∈ l, pyWs c = false) (hn : l.length ≤ n) : collGo n l = l := by
  induction n generalizing l with
  | zero =>
    cases l with
    | nil => rw [collGo]
    | cons a t => simp at hn
  | succ n ih =>
    cases l with
    | nil => rw [collGo]
    | cons a t =>
      have ha := h a (List.mem_cons_self a t)
      rw [collGo, if_neg (by simp [ha])]
      rw [ih (fun c hc => h c (List.mem_cons_of_mem a hc)) (by simp at hn; omega)]

theorem collWs_eq_self {l : List Char} (h : ∀ c ∈ l, pyWs c = false) :
    collWs l = l := collGo_eq_self h (Nat.le_refl _)

/-! ## Characters of `norm_text` and `cleanSeg` -/

theorem mem_norm_text {nfd : String → String} {isMn : Char → Bool} {s : String}
    {c : Char} (h : c ∈ (norm_text nfd isMn s).data) :
    c = ' ' ∨ (allowedKeep c = true ∧ pyWs c = false) := by
  unfold norm_text at h
  by_cases hs : s = ""
  · rw [if_pos hs] at h
    simp at h
  · rw [if_neg hs] at h
    simp only at h
    have h2 := mem_stripWhile h
    rcases mem_collWs h2 with h3 | ⟨h3, h4⟩
    · exact Or.inl h3
    · exact Or.inr ⟨mem_replRuns h3, h4⟩

theorem canonOK_iff {p : String} :
    canonOK p = true ↔
      (∀ c ∈ p.data, isCanonChar c = true) ∧
        notEdge p.data.head? = true ∧ notEdge p.data.getLast? = true := by
  simp [canonOK, List.all_eq_true, and_assoc]

theorem cleanSeg_canon (nfd : String → String) (isMn : Char → Bool) (p : String) :
    canonOK (cleanSeg nfd isMn p) = true := by
  rw [canonOK_iff]
  refine ⟨?_, ?_, ?_⟩
  · intro c hc
    have hc2 := mem_stripWhile hc
    simp only [List.mem_map] at hc2
    obtain ⟨a, ha, hac⟩ := hc2
    obtain ⟨b, hb, hba⟩ := ha
    rcases mem_norm_text hb with rfl | ⟨hk, hw⟩
    · have hsp : Char.toLower ' ' = ' ' := by decide
      rw [hsp] at hba
      subst hba
      subst hac
      decide
    · subst hba
      have hcanon := allowedKeep_toLower_canon hk hw
      have hb' : Char.toLower b ≠ ' ' := (isCanonChar_facts hcanon).2.2.1
      rw [if_neg hb'] at hac
      subst hac
      exact hcanon
  · cases hh : (cleanSeg nfd isMn p).data.head? with
    | none => rfl
    | some c =>
      have := head?_stripWhile hh
      simp [notEdge, this]
  · cases hh : (cleanSeg nfd isMn p).data.getLast? with
    | none => rfl
    | some c =>
      have := getLast?_stripWhile hh
      simp [notEdge, this]

/-! ## `joinSlash` and the canonical alphabet of `to_path` -/

theorem joinSlash_canon :
    ∀ ls : List String, (∀ s ∈ ls, canonOK s = true ∧ s ≠ "") →
      canonOK (joinSlash ls) = true ∧ (ls ≠ [] → joinSlash ls ≠ "")
  | [], _ => ⟨by decide, fun h => absurd rfl h⟩
  | [s], h =>
    ⟨(h s (List.mem_cons_self s [])).1, fun _ => (h s (List.mem_cons_self s [])).2⟩
  | s :: t :: rest, h => by
    have hs := h s (List.mem_cons_self s (t :: rest))
    have ih := joinSlash_canon (t :: rest)
      (fun x hx => h x (List.mem_cons_of_mem s hx))
    have hjne : joinSlash (t :: rest) ≠ "" := ih.2 (by simp)
    have hdata : (joinSlash (s :: t :: rest)).data =
        s.data ++ ['/'] ++ (joinSlash (t :: rest)).data := by
      show (s ++ "/" ++ joinSlash (t :: rest)).data = _
      simp [String.data_append]
    have hsd : s.data ≠ [] := by
      intro hx
      exact hs.2 (by cases s; simp_all)
    have hjd : (joinSlash (t :: rest)).data ≠ [] := by
      intro hx
      apply hjne
      cases hj : joinSlash (t :: rest)
      simp_all
    constructor
    · rw [canonOK_iff] at hs ⊢
      rw [canonOK_iff] at ih
      obtain ⟨ha1, ha2, ha3⟩ := hs.1
      obtain ⟨hb1, hb2, hb3⟩ := ih.1
      refine ⟨?_, ?_, ?_⟩
      · intro c hc
        rw [hdata] at hc
        simp only [List.mem_append, List.mem_singleton] at hc
        rcases hc with (hc | rfl) | hc
        · exact ha1 c hc
        · decide
        · exact hb1 c hc
      · rw [hdata]
        rw [List.append_assoc, List.head?_append]
        cases hh : s.data.head? with
        | none => simp [List.head?_eq_none_iff.mp hh] at hsd
        | some x =>
          rw [hh] at ha2
          simpa using ha2
      · rw [hdata, List.getLast?_append]
        cases hh : (joinSlash (t :: rest)).data.getLast? with
        | none => simp [List.getLast?_eq_none_iff.mp hh] at hjd
        | some x =>
          rw [hh] at hb3
          simpa using hb3
    · intro _
      intro hx
      have hd0 : (joinSlash (s :: t :: rest)).data = [] := by
        rw [hx]
      rw [hdata] at hd0
      simp at hd0

theorem to_path_canon (nfd : String → String) (isMn : Char → Bool)
    (parts : List String) : canonOK (to_path nfd isMn parts) = true := by
  unfold to_path
  refine (joinSlash_canon _ ?_).1
  intro s hs
  simp only [List.mem_filterMap] at hs
  obtain ⟨p, _, hps⟩ := hs
  by_cases h1 : p = ""
  · rw [if_pos h1] at hps
    cases hps
  · rw [if_neg h1] at hps
    by_cases h2 : cleanSeg nfd isMn p = ""
    · rw [if_pos h2] at hps
      cases hps
    · rw [if_neg h2] at hps
      cases hps
      exact ⟨cleanSeg_canon nfd isMn p, h2⟩

/-! ## Canonical strings are fixed points of the canonicalizer -/

theorem mk_data (s : String) : String.mk s.data = s := by
  cases s
  rfl

theorem map_eq_self {f : Char → Char} {l : List Char} (h : ∀ c ∈ l, f c = c) :
    l.map f = l := by
  induction l with
  | nil => rfl
  | cons a t ih =>
    rw [List.map_cons, h a (List.mem_cons_self a t),
      ih (fun c hc => h c (List.mem_cons_of_mem a hc))]

theorem mem_of_head?_eq_some {l : List Char} {a : Char} (h : l.head? = some a) :
    a ∈ l := by
  cases l with
  | nil => cases h
  | cons x t =>
    cases h
    exact List.mem_cons_self _ _

/-- `norm_text` fixes a nonempty string over the canonical alphabet, as long
as `nfd` fixes canonical strings and `isMn` rejects canonical characters
(both true of the real Unicode data, the canonical alphabet being ASCII). -/
theorem norm_text_fix {nfd : String → String} {isMn : Char → Bool}
    (hnfd : ∀ s : String, (∀ c ∈ s.data, isCanonChar c = true) → nfd s = s)
    (hmn : ∀ c, isCanonChar c = true → isMn c = false)
    {p : String} (h1 : ∀ c ∈ p.data, isCanonChar c = true) (hne : p ≠ "") :
    norm_text nfd isMn p = p := by
  have hnw : ∀ c ∈ p.data, pyWs c = false :=
    fun c hc => (isCanonChar_facts (h1 c hc)).2.1
  have hstrip : stripWhile pyWs p.data = p.data :=
    stripWhile_eq_self (fun x hx => hnw x (mem_of_head?_eq_some hx))
      (fun x hx => hnw x (List.mem_of_getLast?_eq_some hx))
  have hfix : nfd (String.mk (stripWhile pyWs p.data)) = p := by
    rw [hstrip, mk_data]
    exact hnfd p h1
  unfold norm_text
  rw [if_neg hne, hfix]
  have hfilter : p.data.filter (fun c => !(isMn c)) = p.data :=
    List.filter_eq_self.mpr (fun c hc => by simp [hmn c (h1 c hc)])
  rw [hfilter, replRuns_eq_self (fun c hc => (isCanonChar_facts (h1 c hc)).1),
    collWs_eq_self hnw, hstrip, mk_data]

/-- `cleanSeg` fixes a nonempty canonical string. -/
theorem cleanSeg_fix {nfd : String → String} {isMn : Char → Bool}
    (hnfd : ∀ s : String, (∀ c ∈ s.data, isCanonChar c = true) → nfd s = s)
    (hmn : ∀ c, isCanonChar c = true → isMn c = false)
    {p : String} (hp : canonOK p = true) (hne : p ≠ "") :
    cleanSeg nfd isMn p = p := by
  rw [canonOK_iff] at hp
  obtain ⟨h1, h2, h3⟩ := hp
  unfold cleanSeg
  rw [norm_text_fix hnfd hmn h1 hne]
  rw [map_eq_self (fun c hc => (isCanonChar_facts (h1 c hc)).2.2.2)]
  rw [map_eq_self (fun c hc => if_neg (isCanonChar_facts (h1 c hc)).2.2.1)]
  rw [stripWhile_eq_self
    (fun x hx => by rw [hx] at h2; simpa [notEdge] using h2)
    (fun x hx => by rw [hx] at h3; simpa [notEdge] using h3)]

theorem cleanSeg_empty (nfd : String → String) (isMn : Char → Bool) :
    cleanSeg nfd isMn "" = "" := rfl

/-- `to_path` on one canonical nonempty segment is the identity. -/
theorem to_path_single_fix {nfd : String → String} {isMn : Char → Bool}
    (hnfd : ∀ s : String, (∀ c ∈ s.data, isCanonChar c = true) → nfd s = s)
    (hmn : ∀ c, isCanonChar c = true → isMn c = false)
    {p : String} (hp : canonOK p = true) (hne : p ≠ "") :
    to_path nfd isMn [p] = p := by
  unfold to_path
  rw [List.filterMap_cons, List.filterMap_nil]
  rw [if_neg hne]
  rw [cleanSeg_fix hnfd hmn hp hne]
  rw [if_neg hne]
  rfl

/-- `to_path` on a canonical prefix and one more display name either returns
the prefix (empty cleaned segment) or extends it with a slash. -/
theorem to_path_pair {nfd : String → String} {isMn : Char → Bool}
    (hnfd : ∀ s : String, (∀ c ∈ s.data, isCanonChar c = true) → nfd s = s)
    (hmn : ∀ c, isCanonChar c = true → isMn c = false)
    {b : String} (hb : canonOK b = true) (hbne : b ≠ "") (name : String) :
    to_path nfd isMn [b, name] =
      if cleanSeg nfd isMn name = "" then b
      else b ++ "/" ++ cleanSeg nfd isMn name := by
  unfold to_path
  rw [List.filterMap_cons, List.filterMap_cons, List.filterMap_nil]
  rw [if_neg hbne, cleanSeg_fix hnfd hmn hb hbne, if_neg hbne]
  by_cases hn : name = ""
  · subst hn
    rw [cleanSeg_empty]
    simp [joinSlash]
  · rw [if_neg hn]
    by_cases hq : cleanSeg nfd isMn name = ""
    · rw [if_pos hq, if_pos hq]
      rfl
    · rw [if_neg hq, if_neg hq]
      rfl

/-! ## Claim theorems: identifiers and canonicalization -/

/-- C1: the identifier generators are deterministic — two invocations of
`uuid_cat` on the same path (and of `uuid_prod` on the same URL) return the
same value, and each is a pure function of the namespaced key string. -/
theorem c1_identifier_deterministic (p u : String) :
    uuid_cat p = uuid_cat p ∧ uuid_prod u = uuid_prod u ∧
      (p ≠ "" → uuid_cat p = uuid5str namespaceURL ("cellphones:/cat/" ++ p)) ∧
      uuid_prod u = uuid5str namespaceURL ("cellphones:/prod/" ++ u) :=
  ⟨rfl, rfl, fun h => by rw [uuid_cat, if_neg h], rfl⟩

theorem c1_identifier_deterministic_witness :
    uuid_cat "dien-thoai" = uuid5str namespaceURL ("cellphones:/cat/" ++ "dien-thoai") ∧
      uuid_prod "x" = uuid5str namespaceURL ("cellphones:/prod/" ++ "x") :=
  ⟨(c1_identifier_deterministic "dien-thoai" "x").2.2.1 (by decide),
   (c1_identifier_deterministic "dien-thoai" "x").2.2.2⟩

/-- C6 fails as stated: `uuid_cat ""` is `""`, but `uuid_prod` has no
empty-input guard, so `uuid_prod ""` is the (nonempty) UUID5 of the
namespaced empty URL. -/
theorem c6_empty_input_counterexample :
    ¬ (uuid_cat "" = "" ∧ uuid_prod "" = "") := by
  intro h
  have h2 := h.2
  rw [show uuid_prod "" = "737ab8d8-4ae6-5fe2-9b9d-e91ee1f5a916" from by decide] at h2
  exact absurd h2 (by decide)

/-- C6 amended: the category generator returns the empty string on empty
input, while the product generator returns a (nonempty) deterministic UUID
even for the empty URL. -/
theorem c6_empty_input_amended :
    uuid_cat "" = "" ∧ uuid_prod "" ≠ "" := by
  refine ⟨rfl, ?_⟩
  rw [show uuid_prod "" = "737ab8d8-4ae6-5fe2-9b9d-e91ee1f5a916" from by decide]
  decide

/-- C8: canonicalization idempotence — `to_path(to_path(x)) = to_path(x)`
for every display string `x`.  The hypotheses state that `nfd` fixes
strings over the canonical alphabet and that `isMn` rejects canonical
characters; both hold of the real Unicode NFD and category data, the
canonical alphabet being plain ASCII. -/
theorem c8_to_path_idempotent (nfd : String → String) (isMn : Char → Bool)
    (hnfd : ∀ s : String, (∀ c ∈ s.data, isCanonChar c = true) → nfd s = s)
    (hmn : ∀ c, isCanonChar c = true → isMn c = false) (x : String) :
    to_path nfd isMn [to_path nfd isMn [x]] = to_path nfd isMn [x] := by
  by_cases hy : to_path nfd isMn [x] = ""
  · rw [hy]
    rfl
  · exact to_path_single_fix hnfd hmn (to_path_canon nfd isMn [x]) hy

theorem c8_to_path_idempotent_witness :
    to_path (fun s => s) (fun _ => false)
        [to_path (fun s => s) (fun _ => false) ["  Hello / World!!  "]] =
      to_path (fun s => s) (fun _ => false) ["  Hello / World!!  "] :=
  c8_to_path_idempotent (fun s => s) (fun _ => false)
    (fun _ _ => rfl) (fun _ _ => rfl) "  Hello / World!!  "

/-- C10: for every list of input strings, `to_path` returns a string over
the canonical alphabet — only lowercase ASCII letters, digits, hyphens,
slashes and pipes (in particular no whitespace, no uppercase and no
accented characters) — that neither begins nor ends with a hyphen, slash
or pipe. -/
theorem c10_canonical_alphabet (nfd : String → String) (isMn : Char → Bool)
    (parts : List String) :
    (∀ c ∈ (to_path nfd isMn parts).data, isCanonChar c = true) ∧
      notEdge (to_path nfd isMn parts).data.head? = true ∧
      notEdge (to_path nfd isMn parts).data.getLast? = true :=
  canonOK_iff.mp (to_path_canon nfd isMn parts)

/-- C9 fails on the code: Unicode NFD leaves `Đ` (U+0110) intact because a
stroke letter has no canonical decomposition, the regex then deletes it, so
the chain `["Điện thoại", "Samsung Galaxy"]` creates the paths `ien-thoai`
(with `is_popular = false`, `ien-thoai` not being in `POPULAR_TOP`) and
`ien-thoai/samsung-galaxy`, and no node `dien-thoai` is ever created.  This
theorem evaluates the embedded `ensure_category` at that input. -/
theorem c9_worked_example_eval :
    ensure_category nfdVN isMnVN [] ["Điện thoại", "Samsung Galaxy"] =
      ([("ien-thoai",
          { name := "Điện thoại", path := "ien-thoai",
            parent_path := none, is_popular := false }),
        ("ien-thoai/samsung-galaxy",
          { name := "Samsung Galaxy", path := "ien-thoai/samsung-galaxy",
            parent_path := some "ien-thoai", is_popular := false })],
       Except.ok (some "ien-thoai/samsung-galaxy")) ∧
      (ensure_category nfdVN isMnVN [] ["Điện thoại", "Samsung Galaxy"]).1.lookup
          "dien-thoai" = none := by
  constructor
  · rfl
  · rfl

/-- C7 fails on the code: `ensure_category` is not total.  On a chain whose
first entry is falsy and a later entry is not, the source skips the first
entry but still computes `built_paths[-1]` at `depth != 1`, raising
`IndexError` on the empty list — for every `nfd` and `isMn`.  This theorem
evaluates the embedded function at the failing input `["", "B"]`. -/
theorem c7_crash_on_leading_empty (nfd : String → String) (isMn : Char → Bool) :
    ensure_category nfd isMn [] ["", "B"] = ([], Except.error ()) := rfl

/-! ## The node map: first-writer-wins and key uniqueness -/

theorem lookup_append_some {l1 l2 : NodeMap} {k : String} {v : CategoryNode}
    (h : l1.lookup k = some v) : (l1 ++ l2).lookup k = some v := by
  rw [List.lookup_append, h]
  rfl

theorem lookup_mem {l : NodeMap} {k : String} {v : CategoryNode}
    (h : l.lookup k = some v) : (k, v) ∈ l := by
  rw [List.lookup_eq_some_iff] at h
  obtain ⟨l1, l2, rfl, _⟩ := h
  simp

/-- Every step of the `ensure_category` loop preserves existing entries:
once a path has a node, later processing never changes it. -/
theorem ensureLoop_lookup_mono (nfd : String → String) (isMn : Char → Bool)
    (chain : List String) :
    ∀ (nodes : NodeMap) (parent : Option String) (built : List String)
      (depth : Nat) (p : String) (n : CategoryNode),
      nodes.lookup p = some n →
      ((ensureLoop nfd isMn nodes parent built depth chain).1).lookup p = some n := by
  induction chain with
  | nil =>
    intro nodes parent built depth p n h
    rw [ensureLoop]
    exact h
  | cons name rest ih =>
    intro nodes parent built depth p n h
    rw [ensureLoop]
    by_cases hname : name = ""
    · rw [if_pos hname]
      exact ih nodes parent built (depth + 1) p n h
    · rw [if_neg hname]
      cases hPO : (if depth = 1 then some (to_path nfd isMn [name])
          else (built.getLast?).map (fun b => to_path nfd isMn [b, name])) with
      | none => exact h
      | some path =>
        dsimp only
        cases ho : nodes.lookup path with
        | some v =>
          simp only [Option.isSome_some, if_true]
          exact ih _ _ _ _ p n h
        | none =>
          simp only [Option.isSome_none, Bool.false_eq_true, if_false]
          exact ih _ _ _ _ p n (lookup_append_some h)

/-- Every step of the loop keeps the keys of the node map without
duplicates: a node is only ever inserted at a key that is absent. -/
theorem ensureLoop_nodup (nfd : String → String) (isMn : Char → Bool)
    (chain : List String) :
    ∀ (nodes : NodeMap) (parent : Option String) (built : List String)
      (depth : Nat),
      (nodes.map Prod.fst).Nodup →
      (((ensureLoop nfd isMn nodes parent built depth chain).1).map Prod.fst).Nodup := by
  induction chain with
  | nil =>
    intro nodes parent built depth h
    rw [ensureLoop]
    exact h
  | cons name rest ih =>
    intro nodes parent built depth h
    rw [ensureLoop]
    by_cases hname : name = ""
    · rw [if_pos hname]
      exact ih nodes parent built (depth + 1) h
    · rw [if_neg hname]
      cases hPO : (if depth = 1 then some (to_path nfd isMn [name])
          else (built.getLast?).map (fun b => to_path nfd isMn [b, name])) with
      | none => exact h
      | some path =>
        dsimp only
        cases ho : nodes.lookup path with
        | some v =>
          simp only [Option.isSome_some, if_true]
          exact ih _ _ _ _ h
        | none =>
          simp only [Option.isSome_none, Bool.false_eq_true, if_false]
          apply ih
          rw [List.map_append, List.nodup_append]
          refine ⟨h, List.nodup_singleton _, ?_⟩
          intro a ha hb
          simp only [List.map_cons, List.map_nil, List.mem_singleton] at hb
          subst hb
          rw [List.lookup_eq_none_iff] at ho
          simp only [List.mem_map] at ha
          obtain ⟨pr, hpr, hfst⟩ := ha
          have hb2 := ho pr hpr
          rw [hfst] at hb2
          simp at hb2

theorem ensure_category_fst (nfd : String → String) (isMn : Char → Bool)
    (nodes : NodeMap) (chain : List String) :
    (ensure_category nfd isMn nodes chain).1 =
      if chain = [] then nodes
      else (ensureLoop nfd isMn nodes none [] 1 chain).1 := by
  unfold ensure_category
  by_cases h : chain = []
  · rw [if_pos h, if_pos h]
  · rw [if_neg h, if_neg h]
    rcases ensureLoop nfd isMn nodes none [] 1 chain with ⟨a, b, c⟩
    cases c <;> simp

/-- C5: after any sequence of `ensure_category` calls on an initially empty
map, the map has exactly one entry per path (its key list has no
duplicates), and any further call leaves every existing node — its `name`,
`parent_path` and `is_popular` — untouched (first-writer-wins). -/
theorem c5_no_duplicate_paths (nfd : String → String) (isMn : Char → Bool)
    (chains : List (List String)) :
    ((runChains nfd isMn chains).map Prod.fst).Nodup ∧
      ∀ (chain : List String) (p : String) (n : CategoryNode),
        (runChains nfd isMn chains).lookup p = some n →
        ((ensure_category nfd isMn (runChains nfd isMn chains) chain).1).lookup p =
          some n := by
  have key : ∀ (chains : List (List String)) (m : NodeMap),
      (m.map Prod.fst).Nodup →
      ((chains.foldl (fun m c => (ensure_category nfd isMn m c).1) m).map Prod.fst).Nodup := by
    intro chains
    induction chains with
    | nil => intro m h; exact h
    | cons c cs ihc =>
      intro m h
      rw [List.foldl_cons]
      apply ihc
      rw [ensure_category_fst]
      by_cases hc : c = []
      · rw [if_pos hc]; exact h
      · rw [if_neg hc]; exact ensureLoop_nodup nfd isMn c m none [] 1 h
  constructor
  · exact key chains [] (by simp)
  · intro chain p n h
    rw [ensure_category_fst]
    by_cases hc : chain = []
    · rw [if_pos hc]; exact h
    · rw [if_neg hc]
      exact ensureLoop_lookup_mono nfd isMn chain _ none [] 1 p n h

theorem c5_no_duplicate_paths_witness :
    ((ensure_category (fun s => s) (fun _ => false)
        (runChains (fun s => s) (fun _ => false) [["A"]]) ["A", "B"]).1).lookup "a" =
      some { name := "A", path := "a", parent_path := none, is_popular := false } :=
  (c5_no_duplicate_paths (fun s => s) (fun _ => false) [["A"]]).2 ["A", "B"] "a"
    { name := "A", path := "a", parent_path := none, is_popular := false } (by rfl)

/-! ## The node-map structural invariant -/

theorem getLast?_concat_eq {l : List String} {a : String} :
    (l ++ [a]).getLast? = some a := by
  rw [List.getLast?_append]
  rfl

theorem countSlash_append_slash (a b : String) :
    countSlash (a ++ "/" ++ b) = countSlash a + 1 + countSlash b := by
  unfold countSlash
  rw [String.data_append, String.data_append, List.count_append, List.count_append]
  rw [show ("/" : String).data = ['/'] from rfl]
  simp

theorem goodMap_insert {M : NodeMap} {path : String} {node : CategoryNode}
    (hg : goodMap M) (ho : M.lookup path = none)
    (hpath : node.path = path) (hcanon : canonOK path = true)
    (hparent : ∀ pp, node.parent_path = some pp → pp ≠ "" →
      (M.lookup pp).isSome = true ∧ countSlash pp < countSlash path) :
    goodMap (M ++ [(path, node)]) := by
  obtain ⟨hnd, hall⟩ := hg
  have hkeep : ∀ k : String, (M.lookup k).isSome = true →
      ((M ++ [(path, node)]).lookup k).isSome = true := by
    intro k hk
    rw [List.lookup_append]
    cases hx : M.lookup k
    · rw [hx] at hk
      simp at hk
    · rfl
  constructor
  · rw [List.map_append, List.nodup_append]
    refine ⟨hnd, List.nodup_singleton _, ?_⟩
    intro a ha hb
    simp only [List.map_cons, List.map_nil, List.mem_singleton] at hb
    subst hb
    rw [List.lookup_eq_none_iff] at ho
    simp only [List.mem_map] at ha
    obtain ⟨pr, hpr, hfst⟩ := ha
    have hb2 := ho pr hpr
    rw [hfst] at hb2
    simp at hb2
  · intro pr hpr
    rcases List.mem_append.mp hpr with hin | hin
    · obtain ⟨h1, h2, h3⟩ := hall pr hin
      refine ⟨h1, h2, ?_⟩
      intro pp hpp hppne
      obtain ⟨hs, hlt⟩ := h3 pp hpp hppne
      exact ⟨hkeep pp hs, hlt⟩
    · simp only [List.mem_singleton] at hin
      subst hin
      refine ⟨hpath, hcanon, ?_⟩
      intro pp hpp hppne
      obtain ⟨hs, hlt⟩ := hparent pp hpp hppne
      exact ⟨hkeep pp hs, hlt⟩

/-- The `ensure_category` loop preserves the structural invariant.  The
auxiliary hypotheses track the loop state: `depth` starts at one, `parent`
is `none` at depth one, and whenever `built_paths` is nonempty its last
element is a canonical key of the map recorded in `parent`. -/
theorem ensureLoop_good (nfd : String → String) (isMn : Char → Bool)
    (hnfd : ∀ s : String, (∀ c ∈ s.data, isCanonChar c = true) → nfd s = s)
    (hmn : ∀ c, isCanonChar c = true → isMn c = false)
    (chain : List String) :
    ∀ (nodes : NodeMap) (parent : Option String) (built : List String)
      (depth : Nat),
      goodMap nodes → 1 ≤ depth → (depth = 1 → parent = none) →
      (∀ prev, built.getLast? = some prev →
        parent = some prev ∧ (nodes.lookup prev).isSome = true ∧
          canonOK prev = true) →
      goodMap (ensureLoop nfd isMn nodes parent built depth chain).1 := by
  induction chain with
  | nil =>
    intro nodes parent built depth hg _ _ _
    rw [ensureLoop]
    exact hg
  | cons name rest ih =>
    intro nodes parent built depth hg hdep hd1 hbuilt
    rw [ensureLoop]
    by_cases hname : name = ""
    · rw [if_pos hname]
      exact ih nodes parent built (depth + 1) hg (by omega)
        (fun h => absurd h (by omega)) hbuilt
    · rw [if_neg hname]
      by_cases hd : depth = 1
      · rw [if_pos hd]
        dsimp only
        cases ho : nodes.lookup (to_path nfd isMn [name]) with
        | some v =>
          simp only [Option.isSome_some, if_true]
          refine ih _ _ _ _ hg (by omega) (fun h => absurd h (by omega)) ?_
          intro prev hprev
          rw [getLast?_concat_eq] at hprev
          injection hprev with he
          refine ⟨by rw [he], ?_, ?_⟩
          · rw [← he, ho]
            rfl
          · rw [← he]
            exact to_path_canon nfd isMn [name]
        | none =>
          simp only [Option.isSome_none, Bool.false_eq_true, if_false]
          refine ih _ _ _ _ ?_ (by omega) (fun h => absurd h (by omega)) ?_
          · refine goodMap_insert hg ho rfl (to_path_canon nfd isMn [name]) ?_
            intro pp hpp _
            have hpp2 : parent = some pp := hpp
            rw [hd1 hd] at hpp2
            cases hpp2
          · intro prev hprev
            rw [getLast?_concat_eq] at hprev
            injection hprev with he
            refine ⟨by rw [he], ?_, ?_⟩
            · rw [← he]
              rw [List.lookup_append, ho]
              simp
            · rw [← he]
              exact to_path_canon nfd isMn [name]
      · rw [if_neg hd]
        cases hgl : built.getLast? with
        | none =>
          simp only [Option.map_none']
          exact hg
        | some prev =>
          simp only [Option.map_some']
          obtain ⟨hpar, hlook, hcanp⟩ := hbuilt prev hgl
          cases ho : nodes.lookup (to_path nfd isMn [prev, name]) with
          | some v =>
            simp only [Option.isSome_some, if_true]
            refine ih _ _ _ _ hg (by omega) (fun h => absurd h (by omega)) ?_
            intro p2 hp2
            rw [getLast?_concat_eq] at hp2
            injection hp2 with he
            refine ⟨by rw [he], ?_, ?_⟩
            · rw [← he, ho]
              rfl
            · rw [← he]
              exact to_path_canon nfd isMn [prev, name]
          | none =>
            simp only [Option.isSome_none, Bool.false_eq_true, if_false]
            refine ih _ _ _ _ ?_ (by omega) (fun h => absurd h (by omega)) ?_
            · refine goodMap_insert hg ho rfl
                (to_path_canon nfd isMn [prev, name]) ?_
              intro pp hpp hppne
              have hpp2 : parent = some pp := hpp
              rw [hpar] at hpp2
              injection hpp2 with he
              subst he
              refine ⟨hlook, ?_⟩
              have hpair := to_path_pair hnfd hmn hcanp hppne name
              by_cases hq : cleanSeg nfd isMn name = ""
              · rw [hpair, if_pos hq] at ho
                rw [ho] at hlook
                simp at hlook
              · rw [hpair, if_neg hq, countSlash_append_slash]
                omega
            · intro p2 hp2
              rw [getLast?_concat_eq] at hp2
              injection hp2 with he
              refine ⟨by rw [he], ?_, ?_⟩
              · rw [← he]
                rw [List.lookup_append, ho]
                simp
              · rw [← he]
                exact to_path_canon nfd isMn [prev, name]

/-- Every map reachable by `ensure_category` calls from the empty map
satisfies the structural invariant. -/
theorem runChains_good (nfd : String → String) (isMn : Char → Bool)
    (hnfd : ∀ s : String, (∀ c ∈ s.data, isCanonChar c = true) → nfd s = s)
    (hmn : ∀ c, isCanonChar c = true → isMn c = false)
    (chains : List (List String)) : goodMap (runChains nfd isMn chains) := by
  have key : ∀ (cs : List (List String)) (m : NodeMap), goodMap m →
      goodMap (cs.foldl (fun m c => (ensure_category nfd isMn m c).1) m) := by
    intro cs
    induction cs with
    | nil => intro m h; exact h
    | cons c rest ihc =>
      intro m h
      rw [List.foldl_cons]
      apply ihc
      rw [ensure_category_fst]
      by_cases hc : c = []
      · rw [if_pos hc]
        exact h
      · rw [if_neg hc]
        refine ensureLoop_good nfd isMn hnfd hmn c m none [] 1 h (by omega)
          (fun _ => rfl) ?_
        intro prev hprev
        cases hprev
  exact key chains [] ⟨by simp, by intro pr hpr; cases hpr⟩

/-! ## The export ordering -/

theorem catLE_iff {a b : CategoryNode} :
    catLE a b = true ↔
      countSlash a.path < countSlash b.path ∨
        (countSlash a.path = countSlash b.path ∧ a.path ≤ b.path) := by
  simp [catLE]

theorem catLE_trans (a b c : CategoryNode) :
    catLE a b = true → catLE b c = true → catLE a c = true := by
  intro hab hbc
  rw [catLE_iff] at hab hbc ⊢
  rcases hab with h1 | ⟨h1, h2⟩ <;> rcases hbc with h3 | ⟨h3, h4⟩
  · left; omega
  · left; omega
  · left; omega
  · right
    exact ⟨by omega, le_trans h2 h4⟩

theorem catLE_total (a b : CategoryNode) : catLE a b || catLE b a := by
  rw [Bool.or_eq_true, catLE_iff, catLE_iff]
  rcases Nat.lt_trichotomy (countSlash a.path) (countSlash b.path) with h | h | h
  · exact Or.inl (Or.inl h)
  · rcases le_total a.path b.path with hs | hs
    · exact Or.inl (Or.inr ⟨h, hs⟩)
    · exact Or.inr (Or.inr ⟨h.symm, hs⟩)
  · exact Or.inr (Or.inl h)

/-- In a list sorted by a boolean comparison, an element that does not
compare at-or-after another strictly precedes every occurrence of it. -/
theorem indexOf_lt_of_sorted {le : CategoryNode → CategoryNode → Bool}
    {l : List CategoryNode}
    (hs : List.Pairwise (fun a b => le a b = true) l) {m n : CategoryNode}
    (hm : m ∈ l) (hn : n ∈ l) (hne : m ≠ n) (hnm : le n m = false) :
    l.indexOf m < l.indexOf n := by
  induction l with
  | nil => cases hm
  | cons x xs ih =>
    rw [List.pairwise_cons] at hs
    obtain ⟨hx, hxs⟩ := hs
    by_cases hmx : x = m
    · rw [List.indexOf_cons_eq xs hmx]
      have hnxs : n ∈ xs := by
        rcases List.mem_cons.mp hn with h | h
        · exact absurd (hmx.symm.trans h.symm) hne
        · exact h
      have hxn : x ≠ n := fun he => hne (hmx.symm.trans he)
      rw [List.indexOf_cons_ne xs hxn]
      exact Nat.succ_pos _
    · by_cases hnx : x = n
      · have hmxs : m ∈ xs := by
          rcases List.mem_cons.mp hm with h | h
          · exact absurd h.symm hmx
          · exact h
        have hcon := hx m hmxs
        rw [hnx, hnm] at hcon
        cases hcon
      · have hmxs : m ∈ xs := by
          rcases List.mem_cons.mp hm with h | h
          · exact absurd h.symm hmx
          · exact h
        have hnxs : n ∈ xs := by
          rcases List.mem_cons.mp hn with h | h
          · exact absurd h.symm hnx
          · exact h
        rw [List.indexOf_cons_ne xs hmx, List.indexOf_cons_ne xs hnx]
        exact Nat.succ_lt_succ (ih hxs hmxs hnxs)

/-- C4: parent-before-child export ordering.  For every node map produced
by a sequence of `ensure_category` calls on an initially empty map, every
node with a non-empty parent path has its parent present in the map, and
`topological_categories` places the parent node at a strictly earlier
position.  The `nfd`/`isMn` hypotheses are as in the idempotence theorem
(true of the real Unicode data). -/
theorem c4_parent_before_child (nfd : String → String) (isMn : Char → Bool)
    (hnfd : ∀ s : String, (∀ c ∈ s.data, isCanonChar c = true) → nfd s = s)
    (hmn : ∀ c, isCanonChar c = true → isMn c = false)
    (chains : List (List String)) (p pp : String) (n : CategoryNode)
    (h1 : (runChains nfd isMn chains).lookup p = some n)
    (h2 : n.parent_path = some pp) (h3 : pp ≠ "") :
    ∃ m : CategoryNode,
      (runChains nfd isMn chains).lookup pp = some m ∧
        m ∈ topological_categories (runChains nfd isMn chains) ∧
        n ∈ topological_categories (runChains nfd isMn chains) ∧
        (topological_categories (runChains nfd isMn chains)).indexOf m <
          (topological_categories (runChains nfd isMn chains)).indexOf n := by
  obtain ⟨hnd, hall⟩ := runChains_good nfd isMn hnfd hmn chains
  have hmem := lookup_mem h1
  obtain ⟨hpathn, _, hpar⟩ := hall (p, n) hmem
  obtain ⟨hsome, hlt⟩ := hpar pp h2 h3
  cases hm : (runChains nfd isMn chains).lookup pp with
  | none =>
    rw [hm] at hsome
    simp at hsome
  | some m =>
    have hmemm := lookup_mem hm
    obtain ⟨hpathm, _, _⟩ := hall (pp, m) hmemm
    have hmv : m ∈ (runChains nfd isMn chains).map Prod.snd := by
      simp only [List.mem_map]
      exact ⟨(pp, m), hmemm, rfl⟩
    have hnv : n ∈ (runChains nfd isMn chains).map Prod.snd := by
      simp only [List.mem_map]
      exact ⟨(p, n), hmem, rfl⟩
    have hsorted : List.Pairwise (fun a b => catLE a b = true)
        (topological_categories (runChains nfd isMn chains)) := by
      rw [topological_categories]
      exact List.sorted_mergeSort catLE_trans catLE_total _
    have hcnt : countSlash m.path < countSlash n.path := by
      rw [hpathm, hpathn]
      exact hlt
    have hfalse : catLE n m = false := by
      rw [Bool.eq_false_iff]
      intro hcon
      rw [catLE_iff] at hcon
      rcases hcon with h | ⟨h, _⟩ <;> omega
    have hne : m ≠ n := by
      intro he
      rw [he] at hcnt
      omega
    refine ⟨m, rfl, ?_, ?_, ?_⟩
    · rw [topological_categories, List.mem_mergeSort]
      exact hmv
    · rw [topological_categories, List.mem_mergeSort]
      exact hnv
    · refine indexOf_lt_of_sorted hsorted ?_ ?_ hne hfalse
      · rw [topological_categories, List.mem_mergeSort]
        exact hmv
      · rw [topological_categories, List.mem_mergeSort]
        exact hnv

theorem c4_parent_before_child_witness :
    ∃ m : CategoryNode,
      (runChains (fun s => s) (fun _ => false) [["A", "B"]]).lookup "a" = some m ∧
        m ∈ topological_categories
            (runChains (fun s => s) (fun _ => false) [["A", "B"]]) ∧
        { name := "B", path := "a/b", parent_path := some "a",
          is_popular := false : CategoryNode } ∈
          topological_categories
            (runChains (fun s => s) (fun _ => false) [["A", "B"]]) ∧
        (topological_categories
            (runChains (fun s => s) (fun _ => false) [["A", "B"]])).indexOf m <
          (topological_categories
            (runChains (fun s => s) (fun _ => false) [["A", "B"]])).indexOf
            { name := "B", path := "a/b", parent_path := some "a",
              is_popular := false : CategoryNode } :=
  c4_parent_before_child (fun s => s) (fun _ => false) (fun _ _ => rfl)
    (fun _ _ => rfl) [["A", "B"]] "a/b" "a"
    { name := "B", path := "a/b", parent_path := some "a", is_popular := false }
    (by rfl) rfl (by decide)

/-! ## Walker step equations -/

section WalkerSteps

variable {env : String → Option (DocType × List String)}
variable {join : String → String → String} {U : Finset String}
variable {hj : ∀ u l, join u l ∈ U}

theorem discover_seen {url : String} {hu : url ∈ U} {seen : Finset String}
    {budget : Option Nat} (h : url ∈ seen) :
    discover env join U hj url hu seen budget =
      ⟨[], seen, [], Finset.Subset.refl seen⟩ := by
  rw [discover.eq_def, dif_pos h]

theorem discover_none {url : String} {hu : url ∈ U} {seen : Finset String}
    {budget : Option Nat} (h : url ∉ seen) (he : env url = none) :
    discover env join U hj url hu seen budget =
      ⟨[], insert url seen, [url], Finset.subset_insert url seen⟩ := by
  rw [discover.eq_def, dif_neg h, he]

theorem discover_index {url : String} {hu : url ∈ U} {seen : Finset String}
    {budget : Option Nat} {locs : List String} (h : url ∉ seen)
    (he : env url = some (DocType.sitemapindex, locs)) :
    discover env join U hj url hu seen budget =
      ⟨(goChildren env join U hj url locs (insert url seen) budget []).results,
       (goChildren env join U hj url locs (insert url seen) budget []).seen',
       url :: (goChildren env join U hj url locs (insert url seen) budget []).fetched,
       Finset.Subset.trans (Finset.subset_insert url seen)
         (goChildren env join U hj url locs (insert url seen) budget []).grows⟩ := by
  rw [discover.eq_def, dif_neg h, he]

theorem discover_urlset {url : String} {hu : url ∈ U} {seen : Finset String}
    {budget : Option Nat} {locs : List String} (h : url ∉ seen)
    (he : env url = some (DocType.urlset, locs)) :
    discover env join U hj url hu seen budget =
      ⟨collectHtml budget [] locs, insert url seen, [url],
       Finset.subset_insert url seen⟩ := by
  rw [discover.eq_def, dif_neg h, he]

theorem discover_unknown {url : String} {hu : url ∈ U} {seen : Finset String}
    {budget : Option Nat} {locs : List String} (h : url ∉ seen)
    (he : env url = some (DocType.unknown, locs)) :
    discover env join U hj url hu seen budget =
      ⟨[], insert url seen, [url], Finset.subset_insert url seen⟩ := by
  rw [discover.eq_def, dif_neg h, he]

theorem goChildren_nil {base : String} {seen : Finset String}
    {budget : Option Nat} {acc : List String} :
    goChildren env join U hj base [] seen budget acc =
      ⟨acc, seen, [], Finset.Subset.refl seen⟩ := by
  rw [goChildren.eq_def]

theorem goChildren_stop {base loc : String} {rest : List String}
    {seen : Finset String} {budget : Option Nat} {acc : List String}
    (hb : budgetDone budget acc.length = true) :
    goChildren env join U hj base (loc :: rest) seen budget acc =
      ⟨acc, seen, [], Finset.Subset.refl seen⟩ := by
  rw [goChildren.eq_def]
  simp [hb]

theorem goChildren_step {base loc : String} {rest : List String}
    {seen : Finset String} {budget : Option Nat} {acc : List String}
    (hb : ¬ budgetDone budget acc.length = true) :
    goChildren env join U hj base (loc :: rest) seen budget acc =
      ⟨(goChildren env join U hj base rest
          (discover env join U hj (join base loc) (hj base loc) seen
            (budget.map (fun b => b - acc.length))).seen' budget
          (acc ++ (discover env join U hj (join base loc) (hj base loc) seen
            (budget.map (fun b => b - acc.length))).results)).results,
       (goChildren env join U hj base rest
          (discover env join U hj (join base loc) (hj base loc) seen
            (budget.map (fun b => b - acc.length))).seen' budget
          (acc ++ (discover env join U hj (join base loc) (hj base loc) seen
            (budget.map (fun b => b - acc.length))).results)).seen',
       (discover env join U hj (join base loc) (hj base loc) seen
          (budget.map (fun b => b - acc.length))).fetched ++
         (goChildren env join U hj base rest
          (discover env join U hj (join base loc) (hj base loc) seen
            (budget.map (fun b => b - acc.length))).seen' budget
          (acc ++ (discover env join U hj (join base loc) (hj base loc) seen
            (budget.map (fun b => b - acc.length))).results)).fetched,
       Finset.Subset.trans
         (discover env join U hj (join base loc) (hj base loc) seen
           (budget.map (fun b => b - acc.length))).grows
         (goChildren env join U hj base rest
          (discover env join U hj (join base loc) (hj base loc) seen
            (budget.map (fun b => b - acc.length))).seen' budget
          (acc ++ (discover env join U hj (join base loc) (hj base loc) seen
            (budget.map (fun b => b - acc.length))).results)).grows⟩ := by
  rw [goChildren.eq_def]
  simp [hb]

end WalkerSteps

/-- The `urlset` loop respects the remaining budget. -/
theorem collectHtml_budget (K : Nat) (locs : List String) :
    ∀ acc : List String, acc.length ≤ K →
      (collectHtml (some K) acc locs).length ≤ K := by
  induction locs with
  | nil =>
    intro acc h
    rw [collectHtml]
    exact h
  | cons loc rest ih =>
    intro acc h
    rw [collectHtml]
    by_cases hb : budgetDone (some K) acc.length = true
    · rw [if_pos hb]
      exact h
    · rw [if_neg hb]
      have hlt : acc.length < K := by
        simp [budgetDone] at hb
        omega
      by_cases hh : endsHtml loc = true
      · rw [if_pos hh]
        refine ih _ ?_
        simp
        omega
      · rw [if_neg hh]
        exact ih _ h

/-- The joint walker invariant: the walk respects any budget, a seen
address contributes nothing, every fetch is of a fresh address (fetched at
most once per walk), and the final `seen` set is exactly the initial one
plus the fetched addresses. -/
theorem walker_invariants (env : String → Option (DocType × List String))
    (join : String → String → String) (U : Finset String)
    (hj : ∀ u l, join u l ∈ U) :
    (∀ (url : String) (hu : url ∈ U) (seen : Finset String) (budget : Option Nat),
      walkerP1 env join U hj url hu seen budget) ∧
    (∀ (base : String) (locs : List String) (seen : Finset String)
        (budget : Option Nat) (acc : List String),
      walkerP2 env join U hj base locs seen budget acc) := by
  refine discover.mutual_induct env join U hj (walkerP1 env join U hj)
    (walkerP2 env join U hj) ?_ ?_ ?_ ?_ ?_ ?_ ?_ ?_
  · intro url hu seen budget hseen
    rw [walkerP1]
    rw [discover_seen hseen]
    exact ⟨fun K _ => by simp, fun _ => ⟨rfl, rfl, rfl⟩, by simp, by simp, by simp⟩
  · intro url hu seen budget hseen hs1 he
    rw [walkerP1]
    rw [discover_none hseen he]
    refine ⟨fun K _ => by simp, fun h => absurd h hseen, by simp, ?_, ?_⟩
    · intro a ha
      simp only [List.mem_singleton] at ha
      subst ha
      exact hseen
    · simp only [List.toFinset_cons, List.toFinset_nil, insert_emptyc_eq]
      ext a
      simp only [Finset.mem_insert, Finset.mem_union, Finset.mem_singleton]
      tauto
  · intro url hu seen budget hseen hs1 locs he res s2 f2 h2 hgc IH2
    rw [walkerP1]
    rw [walkerP2] at IH2
    rw [discover_index hseen he]
    rw [hgc] at IH2 ⊢
    dsimp only at IH2 ⊢
    obtain ⟨hB, hN, hD, hU⟩ := IH2
    refine ⟨?_, fun h => absurd h hseen, ?_, ?_, ?_⟩
    · intro K hK
      exact hB K hK (by simp)
    · rw [List.nodup_cons]
      refine ⟨?_, hN⟩
      intro hcon
      exact (hD url hcon) (Finset.mem_insert_self url seen)
    · intro a ha
      rcases List.mem_cons.mp ha with rfl | ha2
      · exact hseen
      · intro hcon
        exact hD a ha2 (Finset.mem_insert_of_mem hcon)
    · rw [hU, List.toFinset_cons, Finset.insert_union, Finset.union_insert]
  · intro url hu seen budget hseen hs1 locs he
    rw [walkerP1]
    rw [discover_urlset hseen he]
    refine ⟨?_, fun h => absurd h hseen, by simp, ?_, ?_⟩
    · intro K hK
      subst hK
      exact collectHtml_budget K locs [] (by simp)
    · intro a ha
      simp only [List.mem_singleton] at ha
      subst ha
      exact hseen
    · simp only [List.toFinset_cons, List.toFinset_nil, insert_emptyc_eq]
      ext a
      simp only [Finset.mem_insert, Finset.mem_union, Finset.mem_singleton]
      tauto
  · intro url hu seen budget hseen hs1 locs he
    rw [walkerP1]
    rw [discover_unknown hseen he]
    refine ⟨fun K _ => by simp, fun h => absurd h hseen, by simp, ?_, ?_⟩
    · intro a ha
      simp only [List.mem_singleton] at ha
      subst ha
      exact hseen
    · simp only [List.toFinset_cons, List.toFinset_nil, insert_emptyc_eq]
      ext a
      simp only [Finset.mem_insert, Finset.mem_union, Finset.mem_singleton]
      tauto
  · intro base seen budget acc
    rw [walkerP2]
    rw [goChildren_nil]
    exact ⟨fun K _ h => by simpa using h, by simp, by simp, by simp⟩
  · intro base seen budget acc loc rest hb
    rw [walkerP2]
    rw [goChildren_stop hb]
    exact ⟨fun K _ h => by simpa using h, by simp, by simp, by simp⟩
  · intro base seen budget acc loc rest hb out s2 f2 h2 hd out1 s21 f21 h21 hg IH1 IH2
    rw [walkerP2]
    rw [walkerP1] at IH1
    rw [walkerP2] at IH2
    rw [goChildren_step hb, hd]
    dsimp only
    rw [hg]
    rw [hd] at IH1
    rw [hg] at IH2
    dsimp only at IH1 IH2 ⊢
    obtain ⟨hB1, _, hN1, hD1, hU1⟩ := IH1
    obtain ⟨hB2, hN2, hD2, hU2⟩ := IH2
    refine ⟨?_, ?_, ?_, ?_⟩
    · intro K hK hacc
      have hlt : acc.length < K := by
        subst hK
        simp [budgetDone] at hb
        omega
      have h1 := hB1 (K - acc.length) (by rw [hK]; rfl)
      refine hB2 K hK ?_
      simp
      omega
    · rw [List.nodup_append]
      refine ⟨hN1, hN2, ?_⟩
      intro a ha1 ha2
      apply hD2 a ha2
      rw [hU1]
      exact Finset.mem_union_right seen (List.mem_toFinset.mpr ha1)
    · intro a ha
      rcases List.mem_append.mp ha with h | h
      · exact hD1 a h
      · intro hcon
        exact hD2 a h (h2 hcon)
    · rw [hU2, hU1, List.toFinset_append, Finset.union_assoc]

/-- The entry loop of `iter_product_urls` yields at most the remaining
budget. -/
theorem iterLoop_budget (env : String → Option (DocType × List String))
    (join : String → String → String) (U : Finset String)
    (hj : ∀ u l, join u l ∈ U) (K : Nat) :
    ∀ (entries : List String) (he : ∀ e ∈ entries, e ∈ U)
      (seen : Finset String) (total : Nat),
      (iterLoop env join U hj (some K) entries he seen total).length ≤ K - total := by
  intro entries
  induction entries with
  | nil =>
    intro he seen total
    rw [iterLoop]
    simp
  | cons e rest ih =>
    intro he seen total
    rw [iterLoop]
    by_cases hl : limitReached (some K) total = true
    · rw [if_pos hl]
      simp
    · rw [if_neg hl]
      have htot : total < K := by
        simp [limitReached] at hl
        omega
      cases hD : discover env join U hj e (he e (List.mem_cons_self e rest)) seen
          (Option.map (fun L => L - total) (some K)) with
      | mk urls s1 f1 g1 =>
        dsimp only
        have h1 : (urls.take (K - total)).length ≤ K - total := by
          simp
        have h2 := ih (fun x hx => he x (List.mem_cons_of_mem e hx)) s1
          (total + (urls.take (K - total)).length)
        rw [List.length_append]
        omega

/-- C2: budget respected — for every limit `K` and every sitemap graph
(arbitrary fetch results, arbitrary depth and width, cycles included),
`_discover_product_urls_from_sitemap` called with `budget_left = K` returns
at most `K` product URLs, and `iter_product_urls` with `limit = K` yields
at most `K` URLs. -/
theorem c2_budget_respected (env : String → Option (DocType × List String))
    (join : String → String → String) (U : Finset String)
    (hj : ∀ u l, join u l ∈ U) (url : String) (hu : url ∈ U)
    (seen : Finset String) (entries : List String)
    (he : ∀ e ∈ entries, e ∈ U) (K : Nat) :
    (discover env join U hj url hu seen (some K)).results.length ≤ K ∧
      (iter_product_urls env join U hj entries he (some K)).length ≤ K := by
  constructor
  · exact ((walker_invariants env join U hj).1 url hu seen (some K)).1 K rfl
  · rw [iter_product_urls]
    by_cases he0 : entries = []
    · rw [if_pos he0]
      simp
    · rw [if_neg he0]
      have h := iterLoop_budget env join U hj K entries he ∅ 0
      omega

/-- C3: cycle safety and termination.  The walk is total by construction
(its well-founded recursion on the unseen part of the finite address
universe is exactly the `seen`-set argument of the source); this theorem
states the observable consequences: a re-encountered address contributes
nothing and leaves `seen` untouched, every address fetched during a walk is
fetched at most once (the fetch trace has no duplicates and never revisits
an address already seen), and afterwards `seen` is the initial set plus the
fetched addresses — so each address is fetched at most once per whole walk,
even on cyclic graphs. -/
theorem c3_cycle_safety (env : String → Option (DocType × List String))
    (join : String → String → String) (U : Finset String)
    (hj : ∀ u l, join u l ∈ U) (url : String) (hu : url ∈ U)
    (seen : Finset String) (budget : Option Nat) :
    (url ∈ seen →
      (discover env join U hj url hu seen budget).results = [] ∧
      (discover env join U hj url hu seen budget).seen' = seen ∧
      (discover env join U hj url hu seen budget).fetched = []) ∧
    (discover env join U hj url hu seen budget).fetched.Nodup ∧
    (∀ a ∈ (discover env join U hj url hu seen budget).fetched, a ∉ seen) ∧
    (discover env join U hj url hu seen budget).seen' =
      seen ∪ (discover env join U hj url hu seen budget).fetched.toFinset := by
  have h := (walker_invariants env join U hj).1 url hu seen budget
  rw [walkerP1] at h
  exact ⟨h.2.1, h.2.2.1, h.2.2.2.1, h.2.2.2.2⟩

/-! ### Concrete cyclic instance used by the walker witnesses:
a one-address universe whose only document is a sitemap index pointing back
at itself. -/

theorem hjW : ∀ u l : String, (fun _ _ => "a") u l ∈ ({"a"} : Finset String) :=
  fun _ _ => Finset.mem_singleton_self "a"

theorem heW : ∀ e ∈ (["a"] : List String), e ∈ ({"a"} : Finset String) := by
  intro e he
  simp only [List.mem_singleton] at he
  subst he
  exact Finset.mem_singleton_self "a"

theorem c2_budget_respected_witness :
    (discover (fun _ => some (DocType.sitemapindex, ["a"])) (fun _ _ => "a")
        {"a"} hjW "a" (Finset.mem_singleton_self "a") ∅ (some 1)).results.length ≤ 1 ∧
      (iter_product_urls (fun _ => some (DocType.sitemapindex, ["a"]))
        (fun _ _ => "a") {"a"} hjW ["a"] heW (some 1)).length ≤ 1 :=
  c2_budget_respected (fun _ => some (DocType.sitemapindex, ["a"]))
    (fun _ _ => "a") {"a"} hjW "a" (Finset.mem_singleton_self "a") ∅ ["a"] heW 1

theorem c3_cycle_safety_witness :
    ("a" ∈ ({"a"} : Finset String) →
      (discover (fun _ => some (DocType.sitemapindex, ["a"])) (fun _ _ => "a")
        {"a"} hjW "a" (Finset.mem_singleton_self "a") {"a"} none).results = [] ∧
      (discover (fun _ => some (DocType.sitemapindex, ["a"])) (fun _ _ => "a")
        {"a"} hjW "a" (Finset.mem_singleton_self "a") {"a"} none).seen' = {"a"} ∧
      (discover (fun _ => some (DocType.sitemapindex, ["a"])) (fun _ _ => "a")
        {"a"} hjW "a" (Finset.mem_singleton_self "a") {"a"} none).fetched = []) ∧
    (discover (fun _ => some (DocType.sitemapindex, ["a"])) (fun _ _ => "a")
      {"a"} hjW "a" (Finset.mem_singleton_self "a") {"a"} none).fetched.Nodup ∧
    (∀ a ∈ (discover (fun _ => some (DocType.sitemapindex, ["a"])) (fun _ _ => "a")
      {"a"} hjW "a" (Finset.mem_singleton_self "a") {"a"} none).fetched,
        a ∉ ({"a"} : Finset String)) ∧
    (discover (fun _ => some (DocType.sitemapindex, ["a"])) (fun _ _ => "a")
      {"a"} hjW "a" (Finset.mem_singleton_self "a") {"a"} none).seen' =
      {"a"} ∪ (discover (fun _ => some (DocType.sitemapindex, ["a"]))
        (fun _ _ => "a") {"a"} hjW "a" (Finset.mem_singleton_self "a")
        {"a"} none).fetched.toFinset :=
  c3_cycle_safety (fun _ => some (DocType.sitemapindex, ["a"])) (fun _ _ => "a")
    {"a"} hjW "a" (Finset.mem_singleton_self "a") {"a"} none

end Cellphones

